import Mathlib

/-!
Verification of the velox buffer-management core and Base32 codec.

Part 1 embeds `velox/common/encode/Base32.{h,cpp}` directly: byte strings
are `List Nat` (each element a byte value), encoded text is `List Char`,
`size_t` arithmetic is `Nat` (no subtraction in the sources can underflow
on the reachable paths, as noted inline), and thrown `Base32Exception`s
become `Except String` errors.

Part 2 models the byte-stream core (`ByteStream`, `StreamArena`,
`IOBufOutputStream`), whose implementation files are not part of this
repository snapshot; the models are built from the specification
(spec.md sections 3, 4, 4.5) and are pinned, where the specification
leaves freedom, by the observable expectations recorded in
`velox/common/memory/tests/ByteStreamTest.cpp`.
-/

set_option maxRecDepth 4000

namespace Base32

/-- Translation of `kBase32Charset` from Base32.cpp. -/
def kBase32Charset : List Char :=
  ['A', 'B', 'C', 'D', 'E', 'F', 'G', 'H', 'I', 'J', 'K', 'L', 'M',
   'N', 'O', 'P', 'Q', 'R', 'S', 'T', 'U', 'V', 'W', 'X', 'Y', 'Z',
   '2', '3', '4', '5', '6', '7']

/-- Translation of `kBase32ReverseIndexTable` from Base32.cpp (256 entries). -/
def kBase32ReverseIndexTable : List Nat :=
  [255, 255, 255, 255, 255, 255, 255, 255, 255, 255, 255, 255, 255, 255, 255,
   255, 255, 255, 255, 255, 255, 255, 255, 255, 255, 255, 255, 255, 255, 255,
   255, 255, 255, 255, 255, 255, 255, 255, 255, 255, 255, 255, 255, 255, 255,
   255, 255, 255, 255, 255, 26,  27,  28,  29,  30,  31,  255, 255, 255, 255,
   255, 255, 255, 255, 255, 0,   1,   2,   3,   4,   5,   6,   7,   8,   9,
   10,  11,  12,  13,  14,  15,  16,  17,  18,  19,  20,  21,  22,  23,  24,
   25,  255, 255, 255, 255, 255, 255, 255, 255, 255, 255, 255, 255, 255, 255,
   255, 255, 255, 255, 255, 255, 255, 255, 255, 255, 255, 255, 255, 255, 255,
   255, 255, 255, 255, 255, 255, 255, 255, 255, 255, 255, 255, 255, 255, 255,
   255, 255, 255, 255, 255, 255, 255, 255, 255, 255, 255, 255, 255, 255, 255,
   255, 255, 255, 255, 255, 255, 255, 255, 255, 255, 255, 255, 255, 255, 255,
   255, 255, 255, 255, 255, 255, 255, 255, 255, 255, 255, 255, 255, 255, 255,
   255, 255, 255, 255, 255, 255, 255, 255, 255, 255, 255, 255, 255, 255, 255,
   255, 255, 255, 255, 255, 255, 255, 255, 255, 255, 255, 255, 255, 255, 255,
   255, 255, 255, 255, 255, 255, 255, 255, 255, 255, 255, 255, 255, 255, 255,
   255, 255, 255, 255, 255, 255, 255, 255, 255, 255, 255, 255, 255, 255, 255,
   255, 255, 255, 255, 255, 255, 255, 255, 255, 255, 255, 255, 255, 255, 255,
   255]

/-- Pad character `kBase32Pad`. -/
def kBase32Pad : Char := '='

/-- Index into the charset, as `charset[i]` with `i` already masked to 5 bits. -/
def charAt (i : Nat) : Char := kBase32Charset.getD i 'A'

/-- Translation of `Base32::calculateEncodedSize`. The C++ computes
`ceil((size * 8 + 4) / 5.0)` in double precision, which for these integer
magnitudes equals `(size * 8 + 4 + 4) / 5` in integer division. -/
def calculateEncodedSize (size : Nat) (withPadding : Bool) : Nat :=
  if size = 0 then 0
  else
    let encodedSize := (size * 8 + 4 + 4) / 5
    if withPadding then ((encodedSize + 7) / 8) * 8 else encodedSize

/-- Translation of the body of `Base32::encodeImpl(data, charset, include_pad, out)`:
the main loop consumes 5-byte groups while `len > 4`, then the tail encodes
1 to 4 remaining bytes, optionally followed by pad characters. -/
def encodeImpl (pad : Bool) : List Nat → List Char
  | b0 :: b1 :: b2 :: b3 :: b4 :: rest =>
      let curr := (b0 <<< 32) ||| (b1 <<< 24) ||| (b2 <<< 16) ||| (b3 <<< 8) ||| b4
      charAt ((curr >>> 35) &&& 0x1f) :: charAt ((curr >>> 30) &&& 0x1f) ::
      charAt ((curr >>> 25) &&& 0x1f) :: charAt ((curr >>> 20) &&& 0x1f) ::
      charAt ((curr >>> 15) &&& 0x1f) :: charAt ((curr >>> 10) &&& 0x1f) ::
      charAt ((curr >>> 5) &&& 0x1f) :: charAt (curr &&& 0x1f) ::
      encodeImpl pad rest
  | [b0, b1, b2, b3] =>
      let curr := (b0 <<< 32) ||| (b1 <<< 24) ||| (b2 <<< 16) ||| (b3 <<< 8)
      [charAt ((curr >>> 35) &&& 0x1f), charAt ((curr >>> 30) &&& 0x1f),
       charAt ((curr >>> 25) &&& 0x1f), charAt ((curr >>> 20) &&& 0x1f),
       charAt ((curr >>> 15) &&& 0x1f), charAt ((curr >>> 10) &&& 0x1f),
       charAt ((curr >>> 5) &&& 0x1f)] ++
      (if pad then [kBase32Pad] else [])
  | [b0, b1, b2] =>
      let curr := (b0 <<< 32) ||| (b1 <<< 24) ||| (b2 <<< 16)
      [charAt ((curr >>> 35) &&& 0x1f), charAt ((curr >>> 30) &&& 0x1f),
       charAt ((curr >>> 25) &&& 0x1f), charAt ((curr >>> 20) &&& 0x1f),
       charAt ((curr >>> 15) &&& 0x1f)] ++
      (if pad then [kBase32Pad, kBase32Pad, kBase32Pad] else [])
  | [b0, b1] =>
      let curr := (b0 <<< 32) ||| (b1 <<< 24)
      [charAt ((curr >>> 35) &&& 0x1f), charAt ((curr >>> 30) &&& 0x1f),
       charAt ((curr >>> 25) &&& 0x1f), charAt ((curr >>> 20) &&& 0x1f)] ++
      (if pad then [kBase32Pad, kBase32Pad, kBase32Pad, kBase32Pad] else [])
  | [b0] =>
      let curr := b0 <<< 32
      [charAt ((curr >>> 35) &&& 0x1f), charAt ((curr >>> 30) &&& 0x1f)] ++
      (if pad then [kBase32Pad, kBase32Pad, kBase32Pad, kBase32Pad,
                    kBase32Pad, kBase32Pad] else [])
  | [] => []

/-- Translation of `Base32::encode(folly::StringPiece)`: the output string is
resized to `calculateEncodedSize(len, true)` (filled with NUL bytes) and
`encodeImpl` then writes its characters from the start; any tail of the
resized string that `encodeImpl` does not write remains NUL. -/
def encode (s : List Nat) : List Char :=
  let body := encodeImpl true s
  body ++ List.replicate (calculateEncodedSize s.length true - body.length) (Char.ofNat 0)

/-- Translation of `Base32::countPadding` from Base32.h: it inspects only the
last two characters, so it never reports more than 2 pad characters. -/
def countPadding (src : List Char) (len : Nat) : Nat :=
  if src.getD (len - 1) ' ' ≠ kBase32Pad then 0
  else if src.getD (len - 2) ' ' ≠ kBase32Pad then 1
  else 2

/-- Translation of `Base32::calculateDecodedSize`. Returns the computed output
size together with the adjusted (padding-stripped) input size, since the C++
adjusts `size` through a reference. On the padded path `needed = size * 5 / 8 ≥ 5`
(as `size` is a positive multiple of 8) and `padding ≤ 2`, so the `size_t`
subtraction `needed - padding` cannot underflow and plain `Nat` subtraction is
faithful. -/
def calculateDecodedSize (data : List Char) (size : Nat) (withPadding : Bool) :
    Except String (Nat × Nat) :=
  if size = 0 then .ok (0, size)
  else
    let needed := size * 5 / 8
    if withPadding then
      if size % 8 ≠ 0 then
        .error "Base32::decode() - invalid input string: string length is not multiple of 8."
      else
        let padding := countPadding data size
        .ok (needed - padding, size - padding)
    else
      let extra := size % 8
      if extra ≠ 0 then
        if extra = 6 ∨ extra = 3 ∨ extra = 1 then
          .error "Base32::decode() - invalid input string: string length cannot be 6, 3 or 1 more than a multiple of 8."
        else .ok (needed + extra - 1, size)
      else
        let padding := countPadding data size
        .ok (needed - padding, size - padding)

/-- Translation of `Base32::Base32ReverseLookup`: the cast `(uint8_t)p` becomes
`p.toNat % 256`; a table value of `0x20` or above signals an invalid character. -/
def Base32ReverseLookup (p : Char) : Except String Nat :=
  let curr := kBase32ReverseIndexTable.getD (p.toNat % 256) 255
  if 0x20 ≤ curr then
    .error "Base32::decode() - invalid input string: invalid characters"
  else .ok curr

/-- Translation of the main loop of `Base32::decodeImpl`
(`for (; src_len > 8; src_len -= 8, src += 8, dst += 5)`): while more than 8
characters remain, 8 characters are decoded into 5 bytes written at the
current output offset. Returns the remaining input, its remaining length,
the updated output buffer and the output offset. -/
def decodeLoop : List Char → Nat → List Nat → Nat →
    Except String (List Char × Nat × List Nat × Nat)
  | a0 :: a1 :: a2 :: a3 :: a4 :: a5 :: a6 :: a7 :: rest, len, dst, off =>
      if 8 < len then do
        let c0 ← Base32ReverseLookup a0
        let c1 ← Base32ReverseLookup a1
        let c2 ← Base32ReverseLookup a2
        let c3 ← Base32ReverseLookup a3
        let c4 ← Base32ReverseLookup a4
        let c5 ← Base32ReverseLookup a5
        let c6 ← Base32ReverseLookup a6
        let c7 ← Base32ReverseLookup a7
        let last := (c0 <<< 35) ||| (c1 <<< 30) ||| (c2 <<< 25) ||| (c3 <<< 20) |||
                    (c4 <<< 15) ||| (c5 <<< 10) ||| (c6 <<< 5) ||| c7
        let dst1 := ((((dst.set off ((last >>> 32) &&& 0xff)).set
            (off + 1) ((last >>> 24) &&& 0xff)).set
            (off + 2) ((last >>> 16) &&& 0xff)).set
            (off + 3) ((last >>> 8) &&& 0xff)).set
            (off + 4) (last &&& 0xff)
        decodeLoop rest (len - 8) dst1 (off + 5)
      else .ok (a0 :: a1 :: a2 :: a3 :: a4 :: a5 :: a6 :: a7 :: rest, len, dst, off)
  | src, len, dst, off => .ok (src, len, dst, off)

/-- Translation of the tail of `Base32::decodeImpl` (after the main loop),
preserved exactly as written in the source: it writes the byte for shift 16
at output index `off + 3` (not `off + 2`), and for a remaining length of 8 it
never looks at the ninth character `src[7]`. -/
def decodeTail (src : List Char) (len : Nat) (dst : List Nat) (off : Nat) :
    Except String (List Nat) := do
  let c0 ← Base32ReverseLookup (src.getD 0 (Char.ofNat 0))
  let c1 ← Base32ReverseLookup (src.getD 1 (Char.ofNat 0))
  let last0 := (c0 <<< 35) ||| (c1 <<< 30)
  let dst1 := dst.set off ((last0 >>> 32) &&& 0xff)
  if 2 < len then do
    let c2 ← Base32ReverseLookup (src.getD 2 (Char.ofNat 0))
    let c3 ← Base32ReverseLookup (src.getD 3 (Char.ofNat 0))
    let last1 := last0 ||| (c2 <<< 25) ||| (c3 <<< 20)
    let dst2 := dst1.set (off + 1) ((last1 >>> 24) &&& 0xff)
    if 4 < len then do
      let c4 ← Base32ReverseLookup (src.getD 4 (Char.ofNat 0))
      let last2 := last1 ||| (c4 <<< 15)
      let dst3 := dst2.set (off + 3) ((last2 >>> 16) &&& 0xff)
      if 5 < len then do
        let c5 ← Base32ReverseLookup (src.getD 5 (Char.ofNat 0))
        let c6 ← Base32ReverseLookup (src.getD 6 (Char.ofNat 0))
        let last3 := last2 ||| (c5 <<< 10) ||| (c6 <<< 5)
        .ok (dst3.set (off + 4) ((last3 >>> 8) &&& 0xff))
      else .ok dst3
    else .ok dst2
  else .ok dst1

/-- Translation of `Base32::decodeImpl(src, src_len, dst, dst_len, table, pad)`.
Returns the reported output length together with the final output buffer
(the C++ writes through `dst` and returns `needed`). -/
def decodeImpl (src : List Char) (srcLen : Nat) (dst : List Nat) (pad : Bool) :
    Except String (Nat × List Nat) :=
  if srcLen = 0 then .ok (0, dst)
  else
    match calculateDecodedSize src srcLen pad with
    | .error e => .error e
    | .ok (needed, len1) =>
      if dst.length < needed then
        .error "Base32::decode() - invalid output string: output string is too small."
      else
        match decodeLoop src len1 dst 0 with
        | .error e => .error e
        | .ok (src2, len2, dst2, off) =>
          match decodeTail src2 len2 dst2 off with
          | .error e => .error e
          | .ok dst3 => .ok (needed, dst3)

/-- Translation of `Base32::decode(folly::StringPiece)` by way of
`Base32::decode(pair, output)`: the output string is resized to
`len * 5 / 8` NUL bytes, `decodeImpl` runs over it, and the output is then
resized down to the returned length. -/
def decode (s : List Char) : Except String (List Nat) :=
  let outLen := s.length * 5 / 8
  match decodeImpl s s.length (List.replicate outLen 0) true with
  | .error e => .error e
  | .ok (n, buf) => .ok (buf.take n)

end Base32

/-! Claims C8, C9, C10: behavior of the Base32 codec as implemented. -/

/-- C8: evaluation of the code at a failing input. The character 0 (digit
zero) is outside the Base32 alphabet, as `Base32ReverseLookup` itself
reports; yet `decode` of the 8-character input consisting of seven As
followed by a 0 succeeds and returns five zero bytes, because the decode
tail never looks up the eighth character of a final full group. This
contradicts the claim that decode raises an error for every input
containing an out-of-alphabet character. -/
theorem claim_C8_eval :
    Base32.Base32ReverseLookup '0' =
      .error "Base32::decode() - invalid input string: invalid characters" ∧
    Base32.decode ['A', 'A', 'A', 'A', 'A', 'A', 'A', '0'] = .ok [0, 0, 0, 0, 0] := by
  exact ⟨rfl, rfl⟩

/-- C9: evaluation of the code at a failing input. Encoding the four bytes
of the ASCII string abcd gives MFRGGZA=, but decoding that result yields
the bytes 97, 98, 0, 99 instead of 97, 98, 99, 100: the decode tail stores
the third byte at output index 3 instead of 2, so decode is not a left
inverse of encode. -/
theorem claim_C9_eval :
    Base32.encode [97, 98, 99, 100] = ['M', 'F', 'R', 'G', 'G', 'Z', 'A', '='] ∧
    Base32.decode (Base32.encode [97, 98, 99, 100]) = .ok [97, 98, 0, 99] := by
  exact ⟨rfl, rfl⟩

/-- C10: evaluation of the code at a failing input. For a 5-byte input the
claimed encoded size is `8 * ceil(5 / 5) = 8`, but `calculateEncodedSize`
returns 16, and `encode` of a 5-byte input accordingly returns 16
characters whose ninth character is a NUL byte, which is neither in the
Base32 alphabet nor the pad character. -/
theorem claim_C10_eval :
    Base32.calculateEncodedSize 5 true = 16 ∧
    (Base32.encode [97, 98, 99, 100, 101]).length = 16 ∧
    (Base32.encode [97, 98, 99, 100, 101]).getD 8 'A' = Char.ofNat 0 := by
  exact ⟨rfl, rfl, rfl⟩

namespace Stream

/-- Modelled from the spec: the `ByteRange` data model of spec.md section 3
(`velox/common/memory/ByteStream.h` is not part of this snapshot). `data`
is the backing buffer (its length is the capacity), `size` is the
used-length of the range, and `position` is the cursor within the range,
mirroring the three fields used by `ByteStreamTest.cpp`
(`ByteRange{buffer, size, position}`). -/
structure ByteRange where
  data : List Nat
  size : Nat
  position : Nat
deriving DecidableEq

/-- Modelled from the spec: a read-mode Stream (spec.md sections 3 and 4.4)
is an ordered sequence of Ranges plus the index of the range currently
under the cursor. -/
structure ByteStream where
  ranges : List ByteRange
  current : Nat
deriving DecidableEq

/-- Unread bytes ahead of the cursor in a range list whose head is the
current range: the head contributes `size - position`, later ranges their
full `size`. -/
def remR : List ByteRange → Nat
  | [] => 0
  | r :: rs => (r.size - r.position) + (rs.map (·.size)).sum

/-- Content ahead of the cursor: each range holds its bytes in the first
`size` entries of `data`, of which the first `position` are consumed. -/
def unreadR : List ByteRange → List Nat
  | [] => []
  | r :: rs => (r.data.take r.size).drop r.position ++ unreadR rs

/-- Modelled from the spec: `resetInput(ranges)` replaces the Range
sequence wholesale and puts the cursor at the start. -/
def ByteStream.resetInput (rs : List ByteRange) : ByteStream := ⟨rs, 0⟩

/-- Modelled from the spec: `size()` is the sum of `used` across all
Ranges. -/
def ByteStream.size (s : ByteStream) : Nat := (s.ranges.map (·.size)).sum

/-- Modelled from the spec: `lastRangeEndOffset()` (`lastRangeEnd` in the
test file) is the used-length of the final Range, 0 for an empty stream. -/
def ByteStream.lastRangeEnd (s : ByteStream) : Nat :=
  match s.ranges.getLast? with
  | none => 0
  | some r => r.size

/-- Modelled from the spec: `remainingSize()` is the number of unread bytes
ahead of the read cursor. -/
def ByteStream.remainingSize (s : ByteStream) : Nat := remR (s.ranges.drop s.current)

/-- Unread content of the stream, used to state what `readBytes` copies. -/
def ByteStream.unread (s : ByteStream) : List Nat := unreadR (s.ranges.drop s.current)

/-- Modelled from the spec: the copying core of `readBytes` over the range
list starting at the current range. Returns the bytes copied, the updated
range list, and the number of ranges the cursor moved past. The cursor
advances across Range boundaries transparently and lazily (it stays on a
range consumed exactly to its end until the next read needs bytes). -/
def readR : List ByteRange → Nat → List Nat × List ByteRange × Nat
  | rs, 0 => ([], rs, 0)
  | [], _ + 1 => ([], [], 0)
  | r :: rs, n + 1 =>
      let avail := r.size - r.position
      if avail = 0 then
        let res := readR rs (n + 1)
        (res.1, r :: res.2.1, res.2.2 + 1)
      else if n + 1 ≤ avail then
        (((r.data.drop r.position).take (n + 1),
          { r with position := r.position + (n + 1) } :: rs, 0))
      else
        let res := readR rs (n + 1 - avail)
        ((r.data.drop r.position).take avail ++ res.1,
         { r with position := r.position + avail } :: res.2.1, res.2.2 + 1)

/-- Modelled from the spec: `readBytes(dst, len)` copies `len` bytes
starting at the cursor and fails (capacity exhaustion, reported
synchronously) if `len > remainingSize()`. -/
def ByteStream.readBytes (s : ByteStream) (len : Nat) : Option (List Nat × ByteStream) :=
  if s.remainingSize < len then none
  else
    let res := readR (s.ranges.drop s.current) len
    some (res.1, ⟨s.ranges.take s.current ++ res.2.1, s.current + res.2.2⟩)

/-- Repeated fixed-size reads, as in the remainingSize test loop; `none` as
soon as one read fails. -/
def ByteStream.iterRead (s : ByteStream) (chunk : Nat) : Nat → Option ByteStream
  | 0 => some s
  | k + 1 =>
      match s.readBytes chunk with
      | none => none
      | some res => res.2.iterRead chunk k

/-- Well-formedness of the range list ahead of the cursor: the current
range's cursor is within its used bytes, used bytes fit the backing
buffer, and ranges not yet reached are still at position 0 (as supplied
by `resetInput`). -/
def WFR (rs : List ByteRange) : Prop :=
  match rs with
  | [] => True
  | r :: tl => r.position ≤ r.size ∧ r.size ≤ r.data.length ∧
      ∀ x ∈ tl, x.position = 0 ∧ x.size ≤ x.data.length

instance : (rs : List ByteRange) → Decidable (WFR rs)
  | [] => .isTrue trivial
  | r :: tl =>
      inferInstanceAs (Decidable (r.position ≤ r.size ∧ r.size ≤ r.data.length ∧
        ∀ x ∈ tl, x.position = 0 ∧ x.size ≤ x.data.length))

/-- Well-formedness of a read-mode stream. -/
def WFIn (s : ByteStream) : Prop :=
  s.current ≤ s.ranges.length ∧ WFR (s.ranges.drop s.current)

instance (s : ByteStream) : Decidable (WFIn s) :=
  inferInstanceAs (Decidable (_ ∧ _))

end Stream

namespace Stream

theorem WFR_of_tail {tl : List ByteRange}
    (htl : ∀ x ∈ tl, x.position = 0 ∧ x.size ≤ x.data.length) : WFR tl := by
  cases tl with
  | nil => trivial
  | cons x xs =>
    have hx := htl x (by simp)
    exact ⟨by omega, hx.2, fun y hy => htl y (by simp [hy])⟩

theorem remR_eq_sum {tl : List ByteRange}
    (htl : ∀ x ∈ tl, x.position = 0 ∧ x.size ≤ x.data.length) :
    remR tl = (tl.map (·.size)).sum := by
  cases tl with
  | nil => simp [remR]
  | cons x xs =>
    have hx := htl x (by simp)
    simp [remR, hx.1]

theorem readR_spec (rs : List ByteRange) :
    ∀ len, WFR rs → len ≤ remR rs →
    (readR rs len).1 = (unreadR rs).take len ∧
    (readR rs len).1.length = len ∧
    (readR rs len).2.2 ≤ (readR rs len).2.1.length ∧
    (readR rs len).2.1.length = rs.length ∧
    remR ((readR rs len).2.1.drop (readR rs len).2.2) = remR rs - len ∧
    WFR ((readR rs len).2.1.drop (readR rs len).2.2) := by
  induction rs with
  | nil =>
    intro len _ hlen
    have h0 : len = 0 := by simpa [remR] using hlen
    subst h0
    simp [readR, unreadR, remR, WFR]
  | cons r tl ih =>
    intro len hwf hlen
    obtain ⟨hp, hs, htl⟩ := hwf
    have hwftl : WFR tl := WFR_of_tail htl
    have hremtl : remR tl = (tl.map (·.size)).sum := remR_eq_sum htl
    have hrem : remR (r :: tl) = (r.size - r.position) + (tl.map (·.size)).sum := rfl
    cases len with
    | zero =>
      refine ⟨by simp [readR], by simp [readR], by simp [readR], by simp [readR], ?_, ?_⟩
      · simp [readR, remR]
      · simpa [readR] using (⟨hp, hs, htl⟩ : WFR (r :: tl))
    | succ n =>
      by_cases hav : r.size - r.position = 0
      · -- current range exhausted: skip it and recurse
        have hrw : readR (r :: tl) (n + 1) =
            ((readR tl (n + 1)).1, r :: (readR tl (n + 1)).2.1,
              (readR tl (n + 1)).2.2 + 1) := by
          simp [readR, hav]
        have hlen' : n + 1 ≤ remR tl := by omega
        obtain ⟨ih1, ih2, ih3, ih4, ih5, ih6⟩ := ih (n + 1) hwftl hlen'
        have hseg : (r.data.take r.size).drop r.position = [] := by
          apply List.drop_eq_nil_of_le
          rw [List.length_take]
          omega
        refine ⟨?_, ?_, ?_, ?_, ?_, ?_⟩
        · rw [hrw]; simpa [unreadR, hseg] using ih1
        · rw [hrw]; exact ih2
        · rw [hrw]; simp; omega
        · rw [hrw]; simp [ih4]
        · rw [hrw]; simpa using (by omega : remR tl - (n + 1) = remR (r :: tl) - (n + 1)) ▸ ih5
        · rw [hrw]; simpa using ih6
      · by_cases hle : n + 1 ≤ r.size - r.position
        · -- the read fits inside the current range
          have hrw : readR (r :: tl) (n + 1) =
              ((r.data.drop r.position).take (n + 1),
               { r with position := r.position + (n + 1) } :: tl, 0) := by
            simp [readR, hav, hle]
          have hseg : (r.data.take r.size).drop r.position =
              (r.data.drop r.position).take (r.size - r.position) :=
            List.drop_take r.size r.position r.data
          have hseglen : ((r.data.take r.size).drop r.position).length =
              r.size - r.position := by
            rw [List.length_drop, List.length_take]
            omega
          refine ⟨?_, ?_, ?_, ?_, ?_, ?_⟩
          · rw [hrw]
            show (r.data.drop r.position).take (n + 1) = (unreadR (r :: tl)).take (n + 1)
            rw [unreadR, List.take_append_of_le_length (by omega), hseg,
              List.take_take]
            rw [Nat.min_eq_left hle]
          · rw [hrw]
            simp only [List.length_take, List.length_drop]
            omega
          · rw [hrw]; simp
          · rw [hrw]; simp
          · rw [hrw]
            show remR ({ r with position := r.position + (n + 1) } :: tl) =
              remR (r :: tl) - (n + 1)
            rw [hrem]
            show (r.size - (r.position + (n + 1))) + (tl.map (·.size)).sum = _
            omega
          · rw [hrw]
            show WFR ({ r with position := r.position + (n + 1) } :: tl)
            exact ⟨show r.position + (n + 1) ≤ r.size by omega, hs, htl⟩
        · -- the read spans into the following ranges
          have hm : n + 1 - (r.size - r.position) ≤ remR tl := by omega
          obtain ⟨ih1, ih2, ih3, ih4, ih5, ih6⟩ :=
            ih (n + 1 - (r.size - r.position)) hwftl hm
          have hrw : readR (r :: tl) (n + 1) =
              ((r.data.drop r.position).take (r.size - r.position) ++
                 (readR tl (n + 1 - (r.size - r.position))).1,
               { r with position := r.position + (r.size - r.position) } ::
                 (readR tl (n + 1 - (r.size - r.position))).2.1,
               (readR tl (n + 1 - (r.size - r.position))).2.2 + 1) := by
            simp [readR, hav, hle]
          have hseg : (r.data.take r.size).drop r.position =
              (r.data.drop r.position).take (r.size - r.position) :=
            List.drop_take r.size r.position r.data
          have hseglen : ((r.data.take r.size).drop r.position).length =
              r.size - r.position := by
            rw [List.length_drop, List.length_take]
            omega
          refine ⟨?_, ?_, ?_, ?_, ?_, ?_⟩
          · rw [hrw]
            show (r.data.drop r.position).take (r.size - r.position) ++
                (readR tl (n + 1 - (r.size - r.position))).1 =
              (unreadR (r :: tl)).take (n + 1)
            have h1 : unreadR (r :: tl) = (r.data.take r.size).drop r.position ++ unreadR tl :=
              rfl
            rw [h1, List.take_append_eq_append_take, hseglen]
            congr 1
            rw [(List.take_of_length_le (by omega) :
              ((r.data.take r.size).drop r.position).take (n + 1) =
                (r.data.take r.size).drop r.position)]
            exact hseg.symm
          · rw [hrw]
            simp only [List.length_append, List.length_take, List.length_drop, ih2]
            omega
          · rw [hrw]; simp; omega
          · rw [hrw]; simp [ih4]
          · rw [hrw]
            show remR ((((readR tl (n + 1 - (r.size - r.position))).2.1)).drop
              ((readR tl (n + 1 - (r.size - r.position))).2.2)) = remR (r :: tl) - (n + 1)
            rw [ih5, hrem]
            omega
          · rw [hrw]
            simpa using ih6

end Stream

namespace Stream

theorem readBytes_spec (s : ByteStream) (len : Nat) (hwf : WFIn s)
    (hlen : len ≤ s.remainingSize) :
    ∃ bs s1, s.readBytes len = some (bs, s1) ∧
      bs = s.unread.take len ∧ bs.length = len ∧
      s1.remainingSize = s.remainingSize - len ∧ WFIn s1 := by
  obtain ⟨hcur, hwfr⟩ := hwf
  obtain ⟨h1, h2, h3, h4, h5, h6⟩ := readR_spec (s.ranges.drop s.current) len hwfr hlen
  have hnot : ¬ (s.remainingSize < len) := by omega
  have hpre : (s.ranges.take s.current).length = s.current := by
    rw [List.length_take]
    omega
  have hdrop : (s.ranges.take s.current ++ (readR (s.ranges.drop s.current) len).2.1).drop
      (s.current + (readR (s.ranges.drop s.current) len).2.2) =
      (readR (s.ranges.drop s.current) len).2.1.drop
        (readR (s.ranges.drop s.current) len).2.2 := by
    rw [show s.current + (readR (s.ranges.drop s.current) len).2.2 =
      (s.ranges.take s.current).length + (readR (s.ranges.drop s.current) len).2.2 from by
        rw [hpre]]
    rw [List.drop_append]
  refine ⟨(readR (s.ranges.drop s.current) len).1,
    ⟨s.ranges.take s.current ++ (readR (s.ranges.drop s.current) len).2.1,
     s.current + (readR (s.ranges.drop s.current) len).2.2⟩, ?_, h1, h2, ?_, ?_, ?_⟩
  · rw [ByteStream.readBytes, if_neg hnot]
  · show remR ((s.ranges.take s.current ++ (readR (s.ranges.drop s.current) len).2.1).drop
      (s.current + (readR (s.ranges.drop s.current) len).2.2)) = s.remainingSize - len
    rw [hdrop, h5]
    rfl
  · show s.current + (readR (s.ranges.drop s.current) len).2.2 ≤
      (s.ranges.take s.current ++ (readR (s.ranges.drop s.current) len).2.1).length
    rw [List.length_append, hpre]
    omega
  · show WFR ((s.ranges.take s.current ++ (readR (s.ranges.drop s.current) len).2.1).drop
      (s.current + (readR (s.ranges.drop s.current) len).2.2))
    rw [hdrop]
    exact h6

theorem iterRead_spec (chunk : Nat) :
    ∀ (k : Nat) (s : ByteStream), WFIn s → k * chunk ≤ s.remainingSize →
    ∃ s2, s.iterRead chunk k = some s2 ∧
      s2.remainingSize = s.remainingSize - k * chunk ∧ WFIn s2 := by
  intro k
  induction k with
  | zero => exact fun s hwf _ => ⟨s, rfl, by simp, hwf⟩
  | succ k ih =>
    intro s hwf hk
    have hsm : (k + 1) * chunk = k * chunk + chunk := Nat.succ_mul k chunk
    have hchunk : chunk ≤ s.remainingSize := by omega
    obtain ⟨bs, s1, heq, _, _, hrem1, hwf1⟩ := readBytes_spec s chunk hwf hchunk
    obtain ⟨s2, heq2, hrem2, hwf2⟩ := ih s1 hwf1 (by omega)
    refine ⟨s2, ?_, by omega, hwf2⟩
    show s.iterRead chunk (k + 1) = some s2
    rw [ByteStream.iterRead, heq]
    exact heq2

end Stream

/-! Claims C5, C6, C7: read-mode stream sizing, monotone reads, read failure. -/

/-- C5: for every sequence of ranges with known used-lengths supplied to
`resetInput`, `size()` afterwards equals the sum of the used-lengths of all
supplied ranges and `lastRangeEnd` equals the used-length of the last
supplied range. -/
theorem claim_C5 (rs : List Stream.ByteRange) (r : Stream.ByteRange)
    (hlast : rs.getLast? = some r) :
    (Stream.ByteStream.resetInput rs).size = (rs.map (·.size)).sum ∧
    (Stream.ByteStream.resetInput rs).lastRangeEnd = r.size := by
  refine ⟨rfl, ?_⟩
  show (match rs.getLast? with | none => 0 | some x => x.size) = r.size
  rw [hlast]

/-- Witness for C5 at a concrete two-range input. -/
theorem claim_C5_witness :
    ([(⟨[7, 7, 7], 2, 0⟩ : Stream.ByteRange), ⟨[9, 9, 9, 9, 9], 4, 0⟩].getLast? =
       some (⟨[9, 9, 9, 9, 9], 4, 0⟩ : Stream.ByteRange)) ∧
    ((Stream.ByteStream.resetInput
        [⟨[7, 7, 7], 2, 0⟩, ⟨[9, 9, 9, 9, 9], 4, 0⟩]).size =
       ([(⟨[7, 7, 7], 2, 0⟩ : Stream.ByteRange),
         ⟨[9, 9, 9, 9, 9], 4, 0⟩].map (·.size)).sum ∧
     (Stream.ByteStream.resetInput
        [⟨[7, 7, 7], 2, 0⟩, ⟨[9, 9, 9, 9, 9], 4, 0⟩]).lastRangeEnd =
       (⟨[9, 9, 9, 9, 9], 4, 0⟩ : Stream.ByteRange).size) :=
  ⟨by decide, claim_C5 _ _ (by decide)⟩

/-- Sample well-formed read stream used by witnesses: two ranges holding
4 and 2 used bytes, 6 unread bytes in total. -/
def sampleInput : Stream.ByteStream :=
  Stream.ByteStream.resetInput [⟨[10, 11, 12, 13], 4, 0⟩, ⟨[20, 21], 2, 0⟩]

/-- C6: on a read-mode stream, a successful `readBytes` of `len ≤
remainingSize()` decreases `remainingSize()` by exactly `len`, and a loop of
`k` fixed-size chunk reads with `k * chunk ≤ remainingSize()` succeeds at
every step, decrementing `remainingSize()` by exactly the chunk size per
call (so it reaches 0 exactly, with no underflow, when `k * chunk` equals
the initial remaining size). -/
theorem claim_C6 (s : Stream.ByteStream) (len chunk k : Nat) (hwf : Stream.WFIn s)
    (hlen : len ≤ s.remainingSize) (hk : k * chunk ≤ s.remainingSize) :
    (∃ bs s1, s.readBytes len = some (bs, s1) ∧
       s1.remainingSize = s.remainingSize - len) ∧
    (∃ s2, s.iterRead chunk k = some s2 ∧
       s2.remainingSize = s.remainingSize - k * chunk) := by
  constructor
  · obtain ⟨bs, s1, heq, _, _, hrem, _⟩ := Stream.readBytes_spec s len hwf hlen
    exact ⟨bs, s1, heq, hrem⟩
  · obtain ⟨s2, heq, hrem, _⟩ := Stream.iterRead_spec chunk k s hwf hk
    exact ⟨s2, heq, hrem⟩

/-- Witness for C6: the sample stream has 6 unread bytes; a read of 3 and a
loop of three 2-byte reads (which drains it to exactly 0). -/
theorem claim_C6_witness :
    (Stream.WFIn sampleInput ∧ 3 ≤ sampleInput.remainingSize ∧
      3 * 2 ≤ sampleInput.remainingSize) ∧
    ((∃ bs s1, sampleInput.readBytes 3 = some (bs, s1) ∧
        s1.remainingSize = sampleInput.remainingSize - 3) ∧
     (∃ s2, sampleInput.iterRead 2 3 = some s2 ∧
        s2.remainingSize = sampleInput.remainingSize - 3 * 2)) :=
  ⟨⟨by decide, by decide, by decide⟩,
   claim_C6 sampleInput 3 2 3 (by decide) (by decide) (by decide)⟩

/-- C7: on a read-mode stream, `readBytes` fails (returns the
capacity-exhaustion error synchronously) exactly when `len >
remainingSize()`, and otherwise succeeds, copying exactly `len` bytes taken
in order from the unread content across range boundaries. -/
theorem claim_C7 (s : Stream.ByteStream) (len : Nat) (hwf : Stream.WFIn s) :
    (s.remainingSize < len → s.readBytes len = none) ∧
    (len ≤ s.remainingSize → ∃ bs s1, s.readBytes len = some (bs, s1) ∧
       bs.length = len ∧ bs = s.unread.take len) := by
  constructor
  · intro h
    rw [Stream.ByteStream.readBytes, if_pos h]
  · intro h
    obtain ⟨bs, s1, heq, hbs, hlenbs, _, _⟩ := Stream.readBytes_spec s len hwf h
    exact ⟨bs, s1, heq, hlenbs, hbs⟩

/-- Witness for C7 at the sample stream with a 5-byte read crossing from the
first range into the second. -/
theorem claim_C7_witness :
    Stream.WFIn sampleInput ∧
    ((sampleInput.remainingSize < 5 → sampleInput.readBytes 5 = none) ∧
     (5 ≤ sampleInput.remainingSize →
       ∃ bs s1, sampleInput.readBytes 5 = some (bs, s1) ∧
         bs.length = 5 ∧ bs = sampleInput.unread.take 5)) :=
  ⟨by decide, claim_C7 sampleInput 5 (by decide)⟩

namespace Stream

/-- Modelled from the spec: one entry of the `toString()` dump, rendering a
range as `(<position>/<size>)`, with the range under the cursor suffixed by
a space and the word current. -/
def rangeEntries : List ByteRange → Nat → Nat → List String
  | [], _, _ => []
  | r :: rs, i, cur =>
      ("(" ++ Nat.repr r.position ++ "/" ++ Nat.repr r.size ++
        (if i = cur then " current" else "") ++ ")") :: rangeEntries rs (i + 1) cur

/-- Modelled from the spec: the debug dump `toString()` of a stream
(spec.md section 6). The literal format is pinned by the expected string of
the toString test in ByteStreamTest.cpp, whose prefix is `ByteStream[`. -/
def ByteStream.toString (s : ByteStream) : String :=
  "ByteStream[lastRangeEnd " ++ Nat.repr s.lastRangeEnd ++ ", " ++
  Nat.repr s.ranges.length ++ " ranges (position/size) [" ++
  String.intercalate "," (rangeEntries s.ranges 0 s.current) ++ "]]"

/-- The fixture of the toString test: 10 ranges of capacity 4096 each, then
5 reads of 2048 bytes. -/
def toStringFixture : Option ByteStream :=
  (ByteStream.resetInput
    (List.replicate 10 ⟨List.replicate 4096 0, 4096, 0⟩)).iterRead 2048 5

end Stream

/-! Claim C4: the debug string format. -/

/-- C4, counterexample to the claim as stated: on the 10-range fixture read
5 times by 2048 bytes, the dump is not the claimed literal starting with
`Stream[`; the stream test pins the prefix `ByteStream[`. -/
theorem claim_C4_counterexample :
    Option.map Stream.ByteStream.toString Stream.toStringFixture ≠
      some ("Stream[lastRangeEnd 4096, 10 ranges (position/size) " ++
        "[(4096/4096),(4096/4096),(2048/4096 current),(0/4096),(0/4096)," ++
        "(0/4096),(0/4096),(0/4096),(0/4096),(0/4096)]]") := by
  decide

/-- C4 as amended: the dump of the fixture is exactly the literal expected
by the toString test, whose prefix is `ByteStream[` rather than `Stream[`;
the rest of the claimed format, including the ` current` marker on the
range under the cursor, is as claimed. -/
theorem claim_C4 :
    Option.map Stream.ByteStream.toString Stream.toStringFixture =
      some ("ByteStream[lastRangeEnd 4096, 10 ranges (position/size) " ++
        "[(4096/4096),(4096/4096),(2048/4096 current),(0/4096),(0/4096)," ++
        "(0/4096),(0/4096),(0/4096),(0/4096),(0/4096)]]") := by
  decide

namespace Stream

/-- Page size used by the arena (`AllocationTraits::kPageSize`). -/
def kPageSize : Nat := 4096

/-- Round `n` up to a multiple of `q`. -/
def roundUp (n q : Nat) : Nat := ((n + q - 1) / q) * q

/-- Modelled from the spec: the Arena of spec.md section 4.1
(`StreamArena` is not under src/). It reserves page-granular blocks from
the Memory Pool and slices ranges out of the current block's headroom; a
new block is requested only when the current block cannot satisfy the
request. The block quantum of two pages is pinned by the
newRangeAllocation test, whose first expected arena size is
`kPageSize * 2`. `size` is the total reserved from the pool, `currentFree`
the unused part of the current block, `poolAllocs` the number of pool
allocation calls. -/
structure StreamArena where
  size : Nat
  currentFree : Nat
  poolAllocs : Nat
deriving DecidableEq

/-- Modelled from the spec: `newRange(minSize)` slices from the current
block if it has room, else draws a new block of at least two pages (pages
enough to cover the request). -/
def StreamArena.newRange (a : StreamArena) (bytes : Nat) : StreamArena :=
  if bytes ≤ a.currentFree then
    { a with currentFree := a.currentFree - bytes }
  else
    let blk := max (2 * kPageSize) (roundUp bytes kPageSize)
    { size := a.size + blk, currentFree := blk - bytes, poolAllocs := a.poolAllocs + 1 }

/-- Modelled from the spec: the range size-class schedule of spec.md
section 4.3 (growth policy) and section 8 (growth determinism): classes
start at 128 bytes and the step size scales up to whole pages once the
allocated total passes a page. The exact steps are pinned by the
newRangeAllocation test fixture. -/
def newRangeSize (allocated bytes : Nat) : Nat :=
  if allocated + bytes < 128 then 128
  else if allocated + bytes < 512 then roundUp bytes 128
  else if allocated + bytes < kPageSize then roundUp bytes 512
  else roundUp bytes kPageSize

/-- Modelled from the spec: a write-mode Range: `data` is the backing
buffer handed out by the arena (length = capacity), `used` the high-water
mark of bytes written into it. -/
structure WRange where
  data : List Nat
  used : Nat
deriving DecidableEq

/-- Modelled from the spec: a write-mode Stream (spec.md sections 3 and
4.3): an ordered sequence of Ranges, the absolute write cursor `pos`
(`tellp`), the total capacity drawn so far (`testingAllocatedBytes`), and
the arena it draws from. -/
structure ByteOutputStream where
  ranges : List WRange
  pos : Nat
  allocated : Nat
  arena : StreamArena
deriving DecidableEq

/-- Total used bytes across ranges: the stream's `size()`. -/
def sizeW : List WRange → Nat
  | [] => 0
  | r :: rs => r.used + sizeW rs

/-- Bytes of the flushed buffer chain: the used prefix of every range in
order (the zero-copy hand-off of spec.md section 4.5 exposes exactly these
bytes). -/
def flushedW : List WRange → List Nat
  | [] => []
  | r :: rs => r.data.take r.used ++ flushedW rs

/-- Whether the last range still has unused capacity. -/
def hasRoomW (rs : List WRange) : Bool :=
  match rs.getLast? with
  | none => false
  | some r => decide (r.used < r.data.length)

/-- Modelled from the spec: growth. A new range of the schedule size is
drawn from the arena and appended; `allocated` grows by the range's
capacity. -/
def ByteOutputStream.extend (s : ByteOutputStream) (bytes : Nat) : ByteOutputStream :=
  let ns := newRangeSize s.allocated bytes
  { ranges := s.ranges ++ [⟨List.replicate ns 0, 0⟩],
    pos := s.pos,
    allocated := s.allocated + ns,
    arena := s.arena.newRange ns }

/-- Modelled from the spec: before writing, ensure the cursor has a byte to
write into: either it sits over already-written bytes (overwrite after
seek), or the last range has spare capacity; otherwise grow, sized by the
remaining bytes of the append (`n`). -/
def ByteOutputStream.ensureSpace (s : ByteOutputStream) (n : Nat) : ByteOutputStream :=
  if s.pos < sizeW s.ranges then s
  else if hasRoomW s.ranges then s
  else s.extend n

/-- Write one byte at offset `off` of the used-prefix concatenation:
overwrite in place when `off` falls inside a range's used bytes, append at
the high-water mark of the last range when `off` equals the total size. -/
def writeByteW (b : Nat) : List WRange → Nat → List WRange
  | [], _ => []
  | [r], off =>
      if off < r.used then [{ r with data := r.data.set off b }]
      else [⟨r.data.set r.used b, r.used + 1⟩]
  | r :: r2 :: rs, off =>
      if off < r.used then { r with data := r.data.set off b } :: r2 :: rs
      else r :: writeByteW b (r2 :: rs) (off - r.used)

/-- One byte of `write`: space is ensured by the caller. -/
def ByteOutputStream.writeByte (s : ByteOutputStream) (b : Nat) : ByteOutputStream :=
  { s with ranges := writeByteW b s.ranges s.pos, pos := s.pos + 1 }

/-- Modelled from the spec: `appendBytes`/`write`: bytes are laid down in
order from the cursor, overwriting where bytes exist and growing (new
Ranges exactly as in normal append) where they do not; a variable-length
payload splits across as many Ranges as needed. -/
def ByteOutputStream.appendBytes : ByteOutputStream → List Nat → ByteOutputStream
  | s, [] => s
  | s, b :: rest => ByteOutputStream.appendBytes ((s.ensureSpace (rest.length + 1)).writeByte b) rest

/-- Modelled from the spec: `seekAbsolute(offset)`/`seekp` repositions the
write cursor (callers keep `offset ≤ size()`). -/
def ByteOutputStream.seekp (s : ByteOutputStream) (off : Nat) : ByteOutputStream :=
  { s with pos := off }

/-- Position reported by `tellp`. -/
def ByteOutputStream.tellp (s : ByteOutputStream) : Nat := s.pos

/-- Modelled from the spec: `startWrite(0)` prepares an empty write stream
on a fresh arena; nothing is allocated until the first append needs
space. -/
def startWrite : ByteOutputStream := ⟨[], 0, 0, ⟨0, 0, 0⟩⟩

/-- First append scenario state: 1 byte appended. -/
def growthA1 : ByteOutputStream := startWrite.appendBytes (List.replicate 1 97)

/-- Then 64 more bytes. -/
def growthA2 : ByteOutputStream := growthA1.appendBytes (List.replicate 64 97)

/-- Then 63 more bytes (total 128). -/
def growthA3 : ByteOutputStream := growthA2.appendBytes (List.replicate 63 97)

/-- Alternative third append of 64 bytes (total 129). -/
def growthB3 : ByteOutputStream := growthA2.appendBytes (List.replicate 64 97)

end Stream

/-! Claim C2: growth determinism of a fresh write stream. -/

/-- C2: appending 1, 64, 63 bytes to a fresh write stream keeps the
allocated backing bytes at the initial 128-byte range throughout (and the
pool allocation count at one); appending 1, 64, 64 instead grows the
allocated bytes to the next size class, 256, exactly on the third append,
still with a single pool-level allocation. -/
theorem claim_C2 :
    Stream.growthA1.allocated = 128 ∧ Stream.growthA1.arena.poolAllocs = 1 ∧
    Stream.growthA2.allocated = 128 ∧ Stream.growthA2.arena.poolAllocs = 1 ∧
    Stream.growthA3.allocated = 128 ∧ Stream.growthA3.arena.poolAllocs = 1 ∧
    Stream.growthB3.allocated = 256 ∧ Stream.growthB3.arena.poolAllocs = 1 := by
  decide

namespace Stream

/-- Reference model for seek-and-overwrite parity, following the spec's
words: a plain growable buffer with the same seek/write semantics (the
role the `OStreamOutputStream` over `std::stringstream` plays in the
outputStream test). Writing overwrites in place inside the buffer and
appends at its end; `seekp` moves the cursor. -/
structure OStreamOutputStream where
  buf : List Nat
  pos : Nat
deriving DecidableEq

/-- One reference byte write. -/
def OStreamOutputStream.writeByte (r : OStreamOutputStream) (b : Nat) : OStreamOutputStream :=
  if r.pos < r.buf.length then ⟨r.buf.set r.pos b, r.pos + 1⟩
  else ⟨r.buf ++ [b], r.pos + 1⟩

/-- Reference block write. -/
def OStreamOutputStream.write : OStreamOutputStream → List Nat → OStreamOutputStream
  | r, [] => r
  | r, b :: rest => OStreamOutputStream.write (r.writeByte b) rest

/-- Reference seek. -/
def OStreamOutputStream.seekp (r : OStreamOutputStream) (off : Nat) : OStreamOutputStream :=
  ⟨r.buf, off⟩

/-- Operations of a write/seek/write sequence. -/
inductive WOp where
  | write (bs : List Nat)
  | seekp (off : Nat)
deriving DecidableEq

/-- Run a sequence of operations on the range-structured stream. -/
def ByteOutputStream.runOps : ByteOutputStream → List WOp → ByteOutputStream
  | s, [] => s
  | s, .write bs :: ops => ByteOutputStream.runOps (s.appendBytes bs) ops
  | s, .seekp off :: ops => ByteOutputStream.runOps (s.seekp off) ops

/-- Run the same operations on the reference buffer. -/
def OStreamOutputStream.runOps : OStreamOutputStream → List WOp → OStreamOutputStream
  | r, [] => r
  | r, .write bs :: ops => OStreamOutputStream.runOps (r.write bs) ops
  | r, .seekp off :: ops => OStreamOutputStream.runOps (r.seekp off) ops

/-- Validity of an operation sequence: every seek repositions to an offset
at or before the current end of written bytes (tracked on the reference
side, whose buffer length equals the stream's `size()`). -/
def validOps : OStreamOutputStream → List WOp → Bool
  | _, [] => true
  | r, WOp.write bs :: ops => validOps (r.write bs) ops
  | r, WOp.seekp off :: ops => decide (off ≤ r.buf.length) && validOps (r.seekp off) ops

/-- Well-formed write stream: each range's high-water mark fits its
backing buffer, and the cursor is at or before the end of written bytes. -/
def WFW (s : ByteOutputStream) : Prop :=
  (∀ r ∈ s.ranges, r.used ≤ r.data.length) ∧ s.pos ≤ sizeW s.ranges

theorem sizeW_concat (rs : List WRange) (x : WRange) :
    sizeW (rs ++ [x]) = sizeW rs + x.used := by
  induction rs with
  | nil => simp [sizeW]
  | cons r tl ih => simp [sizeW, ih]; omega

theorem flushedW_concat (rs : List WRange) (x : WRange) :
    flushedW (rs ++ [x]) = flushedW rs ++ x.data.take x.used := by
  induction rs with
  | nil => simp [flushedW]
  | cons r tl ih => simp [flushedW, ih]

theorem length_flushedW (rs : List WRange) (h : ∀ r ∈ rs, r.used ≤ r.data.length) :
    (flushedW rs).length = sizeW rs := by
  induction rs with
  | nil => rfl
  | cons r tl ih =>
    have hr := h r (by simp)
    have htl := ih (fun x hx => h x (by simp [hx]))
    simp [flushedW, sizeW, htl, List.length_take]
    omega

theorem roundUp_pos (n q : Nat) (hn : 0 < n) (hq : 0 < q) : 0 < roundUp n q := by
  unfold roundUp
  have h1 : 1 ≤ (n + q - 1) / q := (Nat.one_le_div_iff hq).mpr (by omega)
  exact Nat.mul_pos (by omega) hq

theorem newRangeSize_pos (a n : Nat) (hn : 0 < n) : 0 < newRangeSize a n := by
  unfold newRangeSize
  have h128 : 0 < roundUp n 128 := roundUp_pos n 128 hn (by omega)
  have h512 : 0 < roundUp n 512 := roundUp_pos n 512 hn (by omega)
  have hp : 0 < roundUp n kPageSize := roundUp_pos n kPageSize hn (by decide)
  split_ifs <;> omega

theorem take_set_eq_append (b : Nat) :
    ∀ (l : List Nat) (u : Nat), u < l.length → (l.set u b).take (u + 1) = l.take u ++ [b] := by
  intro l
  induction l with
  | nil => intro u h; simp at h
  | cons a t ih =>
    intro u h
    cases u with
    | zero => simp
    | succ u =>
      simp only [List.set, List.take_succ_cons, List.cons_append]
      rw [ih u (by simpa using h)]

theorem writeByteW_overwrite (b : Nat) :
    ∀ (rs : List WRange) (off : Nat),
    (∀ r ∈ rs, r.used ≤ r.data.length) → off < sizeW rs →
    flushedW (writeByteW b rs off) = (flushedW rs).set off b ∧
    sizeW (writeByteW b rs off) = sizeW rs ∧
    (∀ r ∈ writeByteW b rs off, r.used ≤ r.data.length) := by
  intro rs
  induction rs with
  | nil => intro off _ hoff; simp [sizeW] at hoff
  | cons r tl ih =>
    intro off hwf hoff
    have hu : r.used ≤ r.data.length := hwf r (by simp)
    have htk : (r.data.take r.used).length = r.used := by
      rw [List.length_take]
      omega
    cases tl with
    | nil =>
      have hoffu : off < r.used := by
        simp [sizeW] at hoff
        omega
      have hrw : writeByteW b [r] off = [{ r with data := r.data.set off b }] := by
        simp [writeByteW, hoffu]
      rw [hrw]
      refine ⟨?_, by simp [sizeW], ?_⟩
      · simp only [flushedW, List.append_nil]
        rw [List.set_take]
      · intro x hx
        simp only [List.mem_singleton] at hx
        subst hx
        simpa using hu
    | cons r2 rest =>
      by_cases hoffu : off < r.used
      · have hrw : writeByteW b (r :: r2 :: rest) off =
            { r with data := r.data.set off b } :: r2 :: rest := by
          simp [writeByteW, hoffu]
        rw [hrw]
        refine ⟨?_, by simp [sizeW], ?_⟩
        · simp only [flushedW]
          rw [List.set_append_left _ _ (by omega), List.set_take]
        · intro x hx
          rcases List.mem_cons.mp hx with hx | hx
          · subst hx
            simpa using hu
          · exact hwf x (List.mem_cons_of_mem r hx)
      · have hrw : writeByteW b (r :: r2 :: rest) off =
            r :: writeByteW b (r2 :: rest) (off - r.used) := by
          simp [writeByteW, hoffu]
        have hofftl : off - r.used < sizeW (r2 :: rest) := by
          have : sizeW (r :: r2 :: rest) = r.used + sizeW (r2 :: rest) := rfl
          omega
        obtain ⟨ih1, ih2, ih3⟩ := ih (off - r.used)
          (fun x hx => hwf x (List.mem_cons_of_mem r hx)) hofftl
        rw [hrw]
        refine ⟨?_, ?_, ?_⟩
        · simp only [flushedW]
          rw [List.set_append_right _ _ (by omega), ih1, htk]
          rfl
        · show r.used + sizeW (writeByteW b (r2 :: rest) (off - r.used)) =
            r.used + sizeW (r2 :: rest)
          rw [ih2]
        · intro x hx
          rcases List.mem_cons.mp hx with hx | hx
          · exact hx ▸ hu
          · exact ih3 x hx

theorem writeByteW_append (b : Nat) :
    ∀ (rs : List WRange),
    (∀ r ∈ rs, r.used ≤ r.data.length) →
    ∀ lr, rs.getLast? = some lr → lr.used < lr.data.length →
    flushedW (writeByteW b rs (sizeW rs)) = flushedW rs ++ [b] ∧
    sizeW (writeByteW b rs (sizeW rs)) = sizeW rs + 1 ∧
    (∀ r ∈ writeByteW b rs (sizeW rs), r.used ≤ r.data.length) := by
  intro rs
  induction rs with
  | nil => intro _ lr h; simp at h
  | cons r tl ih =>
    intro hwf lr hlast hroom
    cases tl with
    | nil =>
      have hlr : r = lr := by simpa [List.getLast?] using hlast
      have hroom2 : r.used < r.data.length := by
        rw [hlr]
        exact hroom
      have hsz : sizeW [r] = r.used := by simp [sizeW]
      have hrw : writeByteW b [r] (sizeW [r]) =
          [⟨r.data.set r.used b, r.used + 1⟩] := by
        rw [hsz]
        simp [writeByteW]
      rw [hrw]
      refine ⟨?_, by simp [sizeW, hsz], ?_⟩
      · simp only [flushedW, List.append_nil]
        exact take_set_eq_append b r.data r.used hroom2
      · intro x hx
        simp only [List.mem_singleton] at hx
        subst hx
        simp
        omega
    | cons r2 rest =>
      have hu : r.used ≤ r.data.length := hwf r (by simp)
      have hlast2 : (r2 :: rest).getLast? = some lr := by
        rw [← List.getLast?_cons_cons]
        exact hlast
      obtain ⟨ih1, ih2, ih3⟩ :=
        ih (fun x hx => hwf x (List.mem_cons_of_mem r hx)) lr hlast2 hroom
      have hsz : sizeW (r :: r2 :: rest) = r.used + sizeW (r2 :: rest) := rfl
      have hnotlt : ¬ sizeW (r :: r2 :: rest) < r.used := by
        rw [hsz]
        omega
      have hrw : writeByteW b (r :: r2 :: rest) (sizeW (r :: r2 :: rest)) =
          r :: writeByteW b (r2 :: rest) (sizeW (r2 :: rest)) := by
        simp only [writeByteW, if_neg hnotlt]
        congr 1
        rw [hsz]
        congr 1
        omega
      rw [hrw]
      refine ⟨?_, ?_, ?_⟩
      · show r.data.take r.used ++ flushedW (writeByteW b (r2 :: rest) (sizeW (r2 :: rest))) =
          ((r.data.take r.used) ++ flushedW (r2 :: rest)) ++ [b]
        rw [ih1, List.append_assoc]
      · show r.used + sizeW (writeByteW b (r2 :: rest) (sizeW (r2 :: rest))) =
          sizeW (r :: r2 :: rest) + 1
        rw [ih2, hsz]
        omega
      · intro x hx
        rcases List.mem_cons.mp hx with hx | hx
        · exact hx ▸ hu
        · exact ih3 x hx

end Stream

namespace Stream

/-- The refinement invariant for seek-and-overwrite parity: the flushed
chain of the range-structured stream equals the reference buffer, the
cursors agree, and the stream is well-formed. -/
def StInv (s : ByteOutputStream) (r : OStreamOutputStream) : Prop :=
  flushedW s.ranges = r.buf ∧ s.pos = r.pos ∧ WFW s

theorem ensureSpace_spec (s : ByteOutputStream) (n : Nat) (hwf : WFW s) (hn : 0 < n) :
    flushedW (s.ensureSpace n).ranges = flushedW s.ranges ∧
    sizeW (s.ensureSpace n).ranges = sizeW s.ranges ∧
    (s.ensureSpace n).pos = s.pos ∧
    WFW (s.ensureSpace n) ∧
    ((s.ensureSpace n).pos < sizeW (s.ensureSpace n).ranges ∨
      hasRoomW (s.ensureSpace n).ranges = true) := by
  unfold ByteOutputStream.ensureSpace
  split_ifs with h1 h2
  · exact ⟨rfl, rfl, rfl, hwf, Or.inl h1⟩
  · exact ⟨rfl, rfl, rfl, hwf, Or.inr h2⟩
  · have hns : 0 < newRangeSize s.allocated n := newRangeSize_pos _ _ hn
    unfold ByteOutputStream.extend
    refine ⟨?_, ?_, rfl, ⟨?_, ?_⟩, Or.inr ?_⟩
    · rw [flushedW_concat]
      simp
    · rw [sizeW_concat]
      rfl
    · intro x hx
      rcases List.mem_append.mp hx with hx | hx
      · exact hwf.1 x hx
      · simp only [List.mem_singleton] at hx
        subst hx
        simp
    · rw [sizeW_concat]
      have := hwf.2
      simp only []
      omega
    · unfold hasRoomW
      rw [List.getLast?_concat]
      simpa using hns

theorem writeByte_step (s : ByteOutputStream) (r : OStreamOutputStream) (b n : Nat)
    (hinv : StInv s r) (hn : 0 < n) :
    StInv ((s.ensureSpace n).writeByte b) (r.writeByte b) := by
  obtain ⟨hbuf, hpos, hwf⟩ := hinv
  obtain ⟨he1, he2, he3, hewf, hcan⟩ := ensureSpace_spec s n hwf hn
  have hlen : (flushedW (s.ensureSpace n).ranges).length = sizeW (s.ensureSpace n).ranges :=
    length_flushedW _ hewf.1
  have hbuflen : r.buf.length = sizeW (s.ensureSpace n).ranges := by
    rw [← hbuf, ← he1, hlen]
  have hposr : (s.ensureSpace n).pos = r.pos := by rw [he3, hpos]
  rcases Nat.lt_or_ge (s.ensureSpace n).pos (sizeW (s.ensureSpace n).ranges) with hlt | hge
  · obtain ⟨w1, w2, w3⟩ := writeByteW_overwrite b (s.ensureSpace n).ranges
      (s.ensureSpace n).pos hewf.1 hlt
    have hrpos : r.pos < r.buf.length := by
      rw [hbuflen, ← hposr]
      exact hlt
    refine ⟨?_, ?_, w3, ?_⟩
    · show flushedW (writeByteW b (s.ensureSpace n).ranges (s.ensureSpace n).pos) =
        (r.writeByte b).buf
      rw [w1, OStreamOutputStream.writeByte, if_pos hrpos]
      show (flushedW (s.ensureSpace n).ranges).set (s.ensureSpace n).pos b =
        r.buf.set r.pos b
      rw [he1, hbuf, hposr]
    · show (s.ensureSpace n).pos + 1 = (r.writeByte b).pos
      rw [OStreamOutputStream.writeByte, if_pos hrpos, hposr]
    · show (s.ensureSpace n).pos + 1 ≤ sizeW (writeByteW b (s.ensureSpace n).ranges
        (s.ensureSpace n).pos)
      rw [w2]
      omega
  · have hpe : (s.ensureSpace n).pos = sizeW (s.ensureSpace n).ranges :=
      Nat.le_antisymm hewf.2 hge
    have hroom : hasRoomW (s.ensureSpace n).ranges = true := by
      rcases hcan with hcan | hcan
      · omega
      · exact hcan
    obtain ⟨lr, hlast, hlr⟩ : ∃ lr, (s.ensureSpace n).ranges.getLast? = some lr ∧
        lr.used < lr.data.length := by
      unfold hasRoomW at hroom
      cases hgl : (s.ensureSpace n).ranges.getLast? with
      | none => rw [hgl] at hroom; simp at hroom
      | some lr =>
        rw [hgl] at hroom
        exact ⟨lr, rfl, of_decide_eq_true hroom⟩
    obtain ⟨w1, w2, w3⟩ := writeByteW_append b (s.ensureSpace n).ranges hewf.1 lr hlast hlr
    have hrpos : ¬ r.pos < r.buf.length := by
      rw [hbuflen, ← hposr, hpe]
      omega
    refine ⟨?_, ?_, ?_, ?_⟩
    · show flushedW (writeByteW b (s.ensureSpace n).ranges (s.ensureSpace n).pos) =
        (r.writeByte b).buf
      rw [hpe, w1, OStreamOutputStream.writeByte, if_neg hrpos]
      show flushedW (s.ensureSpace n).ranges ++ [b] = r.buf ++ [b]
      rw [he1, hbuf]
    · show (s.ensureSpace n).pos + 1 = (r.writeByte b).pos
      rw [OStreamOutputStream.writeByte, if_neg hrpos, hposr]
    · show ∀ x ∈ writeByteW b (s.ensureSpace n).ranges (s.ensureSpace n).pos,
        x.used ≤ x.data.length
      rw [hpe]
      exact w3
    · show (s.ensureSpace n).pos + 1 ≤ sizeW (writeByteW b (s.ensureSpace n).ranges
        (s.ensureSpace n).pos)
      rw [hpe, w2]

theorem appendBytes_step (bs : List Nat) :
    ∀ s r, StInv s r → StInv (s.appendBytes bs) (r.write bs) := by
  induction bs with
  | nil => exact fun s r h => h
  | cons b rest ih =>
    intro s r h
    show StInv (ByteOutputStream.appendBytes ((s.ensureSpace (rest.length + 1)).writeByte b) rest)
      (OStreamOutputStream.write (r.writeByte b) rest)
    exact ih _ _ (writeByte_step s r b (rest.length + 1) h (by omega))

theorem seekp_step (s : ByteOutputStream) (r : OStreamOutputStream) (off : Nat)
    (h : StInv s r) (hoff : off ≤ r.buf.length) : StInv (s.seekp off) (r.seekp off) := by
  obtain ⟨hbuf, _, hwf⟩ := h
  refine ⟨hbuf, rfl, hwf.1, ?_⟩
  show off ≤ sizeW s.ranges
  rw [← length_flushedW s.ranges hwf.1, hbuf]
  exact hoff

theorem runOps_inv : ∀ (ops : List WOp) (s : ByteOutputStream) (r : OStreamOutputStream),
    StInv s r → validOps r ops = true →
    StInv (s.runOps ops) (r.runOps ops) := by
  intro ops
  induction ops with
  | nil => exact fun s r h _ => h
  | cons op ops ih =>
    intro s r h hv
    cases op with
    | write bs =>
      have hv2 : validOps (r.write bs) ops = true := by simpa [validOps] using hv
      exact ih _ _ (appendBytes_step bs s r h) hv2
    | seekp off =>
      have hv2 := by simpa [validOps, Bool.and_eq_true] using hv
      exact ih _ _ (seekp_step s r off h hv2.1) hv2.2

end Stream

/-! Claim C3: seek-and-overwrite parity with a plain growable buffer. -/

/-- C3: for every sequence of writes and backward seeks (each seek going to
an offset at or before the current end), the byte content read back from
the flushed chain of the range-structured write stream is byte-for-byte
the buffer of a plain growable reference buffer run on the same
operations, and the final positions (`tellp`) agree. -/
theorem claim_C3 (ops : List Stream.WOp)
    (hvalid : Stream.validOps ⟨[], 0⟩ ops = true) :
    Stream.flushedW (Stream.startWrite.runOps ops).ranges =
      (Stream.OStreamOutputStream.runOps ⟨[], 0⟩ ops).buf ∧
    (Stream.startWrite.runOps ops).tellp =
      (Stream.OStreamOutputStream.runOps ⟨[], 0⟩ ops).pos := by
  have h := Stream.runOps_inv ops Stream.startWrite ⟨[], 0⟩
    ⟨rfl, rfl, fun x hx => absurd hx (List.not_mem_nil x), Nat.le_refl 0⟩ hvalid
  exact ⟨h.1, h.2.1⟩

/-- A concrete write/seek/write sequence: write five bytes, seek back to
offset 2 and overwrite four bytes (overlapping the prior end), seek to 0
and overwrite one byte. -/
def parityOps : List Stream.WOp :=
  [.write [1, 2, 3, 4, 5], .seekp 2, .write [9, 8, 7, 6], .seekp 0, .write [5]]

/-- Witness for C3 at the concrete sequence `parityOps`. -/
theorem claim_C3_witness :
    Stream.validOps ⟨[], 0⟩ parityOps = true ∧
    (Stream.flushedW (Stream.startWrite.runOps parityOps).ranges =
       (Stream.OStreamOutputStream.runOps ⟨[], 0⟩ parityOps).buf ∧
     (Stream.startWrite.runOps parityOps).tellp =
       (Stream.OStreamOutputStream.runOps ⟨[], 0⟩ parityOps).pos) :=
  ⟨by decide, claim_C3 parityOps (by decide)⟩

namespace Stream

/-- Modelled from the spec: the shared-ownership state of the flushed
buffer chain (spec.md sections 3 and 4.5; `IOBufOutputStream::getIOBuf`
and the IOBuf chain are not under src/). The backing segments carry one
shared reference count across every holder (the producing stream's own
hold and every chain or clone); `pages` is the page count of the backing
memory, `outstanding` the pool's outstanding-allocation count, and
`frees` how many times the backing memory has been deallocated. -/
structure ChainWorld where
  pages : Nat
  refs : Nat
  outstanding : Nat
  frees : Nat
deriving DecidableEq

/-- A freshly written stream holding the only reference to `n` pages of
backing memory drawn from the pool. -/
def streamWorld (n : Nat) : ChainWorld := ⟨n, 1, n, 0⟩

/-- Modelled from the spec: `getIOBuf` (and `clone`) take a new reference
on the same backing segments without copying or allocating. -/
def addRef (w : ChainWorld) : ChainWorld := { w with refs := w.refs + 1 }

/-- Take `k` further references (clones of the chain). -/
def cloneN : Nat → ChainWorld → ChainWorld
  | 0, w => w
  | k + 1, w => cloneN k (addRef w)

/-- Modelled from the spec: destroying one holder releases one reference;
the backing memory is freed (exactly once, observable as a drop of the
pool's outstanding count) when and only when the last reference is
released. -/
def release (w : ChainWorld) : ChainWorld :=
  if w.refs = 1 then ⟨w.pages, 0, w.outstanding - w.pages, w.frees + 1⟩
  else { w with refs := w.refs - 1 }

/-- Destroy `j` holders one after the other. -/
def releaseN : Nat → ChainWorld → ChainWorld
  | 0, w => w
  | j + 1, w => releaseN j (release w)

theorem cloneN_refs : ∀ (k : Nat) (w : ChainWorld),
    cloneN k w = ⟨w.pages, w.refs + k, w.outstanding, w.frees⟩ := by
  intro k
  induction k with
  | zero => intro w; rfl
  | succ k ih =>
    intro w
    show cloneN k (addRef w) = _
    rw [ih (addRef w)]
    show ChainWorld.mk w.pages (w.refs + 1 + k) w.outstanding w.frees = _
    congr 1
    omega

theorem releaseN_live : ∀ (j : Nat) (w : ChainWorld), j < w.refs →
    releaseN j w = ⟨w.pages, w.refs - j, w.outstanding, w.frees⟩ := by
  intro j
  induction j with
  | zero => intro w _; rfl
  | succ j ih =>
    intro w hj
    have hne : ¬ w.refs = 1 := by omega
    show releaseN j (release w) = _
    rw [release, if_neg hne, ih _ (by simp; omega)]
    show ChainWorld.mk w.pages (w.refs - 1 - j) w.outstanding w.frees = _
    congr 1
    omega

theorem releaseN_succ : ∀ (j : Nat) (w : ChainWorld),
    releaseN (j + 1) w = release (releaseN j w) := by
  intro j
  induction j with
  | zero => intro w; rfl
  | succ j ih =>
    intro w
    show releaseN (j + 1) (release w) = _
    rw [ih (release w)]
    rfl

end Stream

/-! Claim C1: shared-ownership lifetime of flushed buffers. -/

/-- C1: for a stream whose writes drew `n > 0` pages from the pool, after
flushing the chain (`getIOBuf`) and taking `c` clones, destroying any `j`
of the `c + 2` holders with `j < c + 2` (in particular, destroying the
original stream while a chain or clone is alive) leaves the pool's
outstanding-allocation count at `n` with the memory never freed, while
destroying all `c + 2` holders drops the outstanding count to zero with
the backing memory freed exactly once. -/
theorem claim_C1 (n c j : Nat) (hn : 0 < n) (hj : j < c + 2) :
    ((Stream.releaseN j (Stream.cloneN c (Stream.addRef (Stream.streamWorld n)))).outstanding = n ∧
     (Stream.releaseN j (Stream.cloneN c (Stream.addRef (Stream.streamWorld n)))).frees = 0) ∧
    (Stream.releaseN (c + 2) (Stream.cloneN c (Stream.addRef (Stream.streamWorld n)))).outstanding = 0 ∧
    (Stream.releaseN (c + 2) (Stream.cloneN c (Stream.addRef (Stream.streamWorld n)))).frees = 1 := by
  have hw : Stream.cloneN c (Stream.addRef (Stream.streamWorld n)) = ⟨n, c + 2, n, 0⟩ := by
    rw [Stream.cloneN_refs]
    show Stream.ChainWorld.mk n (1 + 1 + c) n 0 = _
    congr 1
    omega
  rw [hw]
  refine ⟨?_, ?_⟩
  · rw [Stream.releaseN_live j ⟨n, c + 2, n, 0⟩ (by simpa using hj)]
    exact ⟨rfl, rfl⟩
  · have hstep : Stream.releaseN (c + 2) (⟨n, c + 2, n, 0⟩ : Stream.ChainWorld) =
        Stream.release (Stream.releaseN (c + 1) ⟨n, c + 2, n, 0⟩) :=
      Stream.releaseN_succ (c + 1) _
    rw [hstep, Stream.releaseN_live (c + 1) ⟨n, c + 2, n, 0⟩ (by simp)]
    have hone : c + 2 - (c + 1) = 1 := by omega
    rw [hone, Stream.release, if_pos rfl]
    exact ⟨Nat.sub_self n, rfl⟩

/-- Witness for C1: three pages, one clone, destroying the original stream
first (one holder of three). -/
theorem claim_C1_witness :
    (0 < 3 ∧ 1 < 1 + 2) ∧
    (((Stream.releaseN 1 (Stream.cloneN 1 (Stream.addRef (Stream.streamWorld 3)))).outstanding = 3 ∧
      (Stream.releaseN 1 (Stream.cloneN 1 (Stream.addRef (Stream.streamWorld 3)))).frees = 0) ∧
     (Stream.releaseN (1 + 2) (Stream.cloneN 1 (Stream.addRef (Stream.streamWorld 3)))).outstanding = 0 ∧
     (Stream.releaseN (1 + 2) (Stream.cloneN 1 (Stream.addRef (Stream.streamWorld 3)))).frees = 1) :=
  ⟨⟨by decide, by decide⟩, claim_C1 3 1 1 (by decide) (by decide)⟩
